import Mathlib

/-!
Verification of the declarative schema-binding layer (`pptx/oxml/xmlchemy.py`).

The development shallowly embeds the parts of the source the claims are
about: the element tree (a parent's ordered child list), the generated
child-element operations (find / insert-in-sequence / add / remove /
get-or-add / get-or-change-to), the attribute bindings (Optional and
Required), class-member materialization (`_add_to_class` / `setattr`),
and the `XmlString` serialized-XML comparison.

Elements carry a numeric identity so that "returns the identical child"
claims are expressible; freshly created elements receive the next id from
a counter carried in the parent state.
-/

/-- A child element node: identity plus qualified tag name.  Only the tag
participates in the lookups of `xmlchemy`; the id models object identity. -/
structure Elem where
  id : Nat
  tag : String
deriving DecidableEq, Repr

/-- Parent-element state for the generated child operations: the ordered
child list plus a fresh-id counter used when new child elements are
created by the generated `_new_x()` creators. -/
structure PState where
  children : List Elem
  fresh : Nat
deriving DecidableEq, Repr

/-- `obj.find(qn(tagname))`: first child with the given tag, or `None`.
(lxml `find` scans children in document order.) -/
def findChild (t : String) : List Elem → Option Elem
  | [] => none
  | c :: cs => if c.tag = t then some c else findChild t cs

/-- Index form of `obj.find(qn(tagname))`: position of the first child with
the given tag, used to express `successor.addprevious(elm)` on lists. -/
def findTagIdx (t : String) : List Elem → Option Nat
  | [] => none
  | c :: cs => if c.tag = t then some 0 else (findTagIdx t cs).map (· + 1)

/-- `BaseOxmlElement.first_child_found_in(*tagnames)` (src lines 677-683):
for each tagname in the order given, return the first child bearing that
tag; `None` when no tagname matches any child. -/
def first_child_found_in (cs : List Elem) : List String → Option Elem
  | [] => none
  | t :: ts =>
    match findChild t cs with
    | some c => some c
    | none => first_child_found_in cs ts

/-- Index form of `first_child_found_in`: the position of the child that
`first_child_found_in` returns (if any). -/
def firstIndexIn (cs : List Elem) : List String → Option Nat
  | [] => none
  | t :: ts =>
    match findTagIdx t cs with
    | some i => some i
    | none => firstIndexIn cs ts

/-- Insert an element at position `k` of a child list (the list form of
lxml's `node.addprevious(elm)` where `node` is the child at index `k`). -/
def insertAt (k : Nat) (e : Elem) : List Elem → List Elem
  | [] => [e]
  | c :: cs =>
    match k with
    | 0 => e :: c :: cs
    | k + 1 => c :: insertAt k e cs

/-- `BaseOxmlElement.insert_element_before(elm, *tagnames)` (src lines
685-691): find the successor child via `first_child_found_in`; if found,
`successor.addprevious(elm)`, otherwise `self.append(elm)`; `elm` is
returned. -/
def insert_element_before (cs : List Elem) (e : Elem) (tagnames : List String) :
    Elem × List Elem :=
  match firstIndexIn cs tagnames with
  | some i => (e, insertAt i e cs)
  | none => (e, cs ++ [e])

/-- `BaseOxmlElement.remove_all(*tagnames)` (src lines 693-698): for each
tagname, find all children bearing it and remove each from the parent. -/
def remove_all (cs : List Elem) : List String → List Elem
  | [] => cs
  | t :: ts => remove_all (cs.filter (fun c => ¬ c.tag = t)) ts

/-- `obj.findall(qn(tagname))`, the body of the generated `x_lst` list
getter (`_BaseChildElement._list_getter`, src lines 393-404): all children
with the given tag, in document order. -/
def findall (t : String) : List Elem → List Elem
  | [] => []
  | c :: cs => if c.tag = t then c :: findall t cs else findall t cs

/-- The generated `_new_x()` creator (`_BaseChildElement._creator`, src
lines 364-371): a loose, newly created element with the binding's tag and
a fresh identity. -/
def new_child (tag : String) (s : PState) : Elem × PState :=
  (⟨s.fresh, tag⟩, ⟨s.children, s.fresh + 1⟩)

/-- The generated `_add_x()` adder (`_BaseChildElement._add_adder`, src
lines 293-309): create a new child via the creator, insert it in sequence
via the generated inserter (which calls `insert_element_before` with the
binding's successors, src lines 332-343), return the child. -/
def add_child (tag : String) (successors : List String) (s : PState) : Elem × PState :=
  let cp := new_child tag s
  (cp.1, ⟨(insert_element_before cp.2.children cp.1 successors).2, cp.2.fresh⟩)

/-- Python runtime values as far as the generated `get_or_add_x` body needs
them: `None`, a child element, or a bound method retrieved by `getattr`. -/
inductive PyVal where
  | pyNone
  | pyElem (e : Elem)
  | boundMethod (name : String)
deriving DecidableEq, Repr

/-- Python errors raised by the embedded code paths. -/
inductive PyErr where
  | typeError
  | attributeError (name : String)
deriving DecidableEq, Repr

/-- The generated `get_or_add_child` body from `ZeroOrOne._add_get_or_adder`
(src lines 574-579), statement by statement:
`child = getattr(obj, self._add_method_name)` retrieves the bound `_add_x`
adder method (a callable, never `None`); the `if child is not None` branch
is therefore always taken; there `add_method = getattr(obj, self._prop_name)`
retrieves the value of the `x` property (the existing child element, or
`None` when absent) and `child = add_method()` calls that value, which is
not callable, raising `TypeError`.  The function body ends in `return None`. -/
def get_or_add_child (prop nsptagname : String) (cs : List Elem) :
    Except PyErr (Option Elem) :=
  let child : PyVal := .boundMethod ("_add_" ++ prop)
  if child = .pyNone then
    .ok none
  else
    let add_method : PyVal :=
      match findChild nsptagname cs with
      | some c => .pyElem c
      | none => .pyNone
    match add_method with
    | .boundMethod _ => .ok none
    | .pyElem _ => .error .typeError
    | .pyNone => .error .typeError

/-- The name under which `ZeroOrOne._add_get_or_adder` attaches the
generated function: `self._add_to_class(self._nsptagname, get_or_add_child)`
(src line 584) uses the binding's tag name. -/
def get_or_adder_attached_name (nsptagname : String) : String :=
  nsptagname

/-- `ZeroOrOne._get_or_add_method_name` (src lines 595-597): the name the
rest of the codebase uses to call the get-or-add operation. -/
def get_or_add_method_name (prop : String) : String :=
  "get_or_add_" ++ prop

/-- Attribute names defined on a `ZeroOrOne` binding instance: `__init__`
of `_BaseChildElement` sets `_nsptagname` and `_successors`;
`populate_class_members` sets `_element_cls` and `_prop_name`; the
remaining names are the methods, properties and lazyproperties declared on
`ZeroOrOne`, `_BaseChildElement` and `lazyproperty`-cached values.
`_nsdecls` is not among them. -/
def zeroOrOneInstanceAttrs : List String :=
  [ "_nsptagname", "_successors", "_element_cls", "_prop_name",
    "populate_class_members", "_add_get_or_adder", "_add_remover",
    "_add_adder", "_add_creator", "_add_getter", "_add_inserter",
    "_add_list_getter", "_add_method_name", "_add_to_class", "_creator",
    "_getter", "_insert_method_name", "_list_getter", "_new_method_name",
    "_remove_method_name", "_get_or_add_method_name" ]

/-- `getattr` on a `ZeroOrOne` binding instance: succeeds exactly for the
attribute names the class defines, raising `AttributeError` otherwise. -/
def bindingGetattr (name : String) : Except PyErr String :=
  if name ∈ zeroOrOneInstanceAttrs then .ok name else .error (.attributeError name)

/-- The generated `_remove_child` body from `ZeroOrOne._add_remover` (src
lines 589-590): `obj.remove_all(self._nsdecls)` — first evaluates
`self._nsdecls` on the binding instance, then would pass the result to
`remove_all`. -/
def remove_child (cs : List Elem) : Except PyErr (List Elem) :=
  match bindingGetattr "_nsdecls" with
  | .error e => .error e
  | .ok t => .ok (remove_all cs [t])

theorem findall_filter_not (t : String) (cs : List Elem) :
    findall t (cs.filter (fun c => ¬ c.tag = t)) = [] := by
  induction cs with
  | nil => rfl
  | cons c cs ih =>
    by_cases h : c.tag = t
    · simpa [List.filter_cons, h] using ih
    · simpa [findall, List.filter_cons, h] using ih

/-- Claim C1: the spec (and the generated function's own docstring) says
`get_or_add_x()` returns the existing `x` child or creates, inserts and
returns a new one.  The code attaches the generated function under the
binding's *tag name* instead of `get_or_add_x`, and the function body
itself raises `TypeError` on every parent (it tests the bound adder method
for `None`, then calls the non-callable property value): the claim is
right and the code is wrong. -/
theorem c1_get_or_add_code_bug :
    (∀ prop nsptagname cs, get_or_add_child prop nsptagname cs = .error .typeError) ∧
    get_or_adder_attached_name "a:ln" ≠ get_or_add_method_name "ln" := by
  refine ⟨fun prop nsptagname cs => ?_, by decide⟩
  unfold get_or_add_child
  cases findChild nsptagname cs <;> rfl

/-- Claim C3: the spec (and the generated remover's docstring) says
`_remove_x()` deletes every `x` child and succeeds.  The code evaluates
`self._nsdecls` on the binding instance, an attribute no binding class
defines, so every call raises `AttributeError` and no child is removed:
the claim is right and the code is wrong.  The last two conjuncts show the
primitive the remover was meant to call, `remove_all`, does delete every
matching child while keeping all the others. -/
theorem c3_remover_code_bug :
    (∀ cs, remove_child cs = .error (.attributeError "_nsdecls")) ∧
    (∀ cs t, findall t (remove_all cs [t]) = []) ∧
    (∀ cs t, remove_all cs [t] = cs.filter (fun c => ¬ c.tag = t)) := by
  refine ⟨fun cs => rfl, fun cs t => ?_, fun cs t => rfl⟩
  have h : remove_all cs [t] = cs.filter (fun c => ¬ c.tag = t) := rfl
  rw [h]
  exact findall_filter_not t cs

theorem findTagIdx_get {t : String} {cs : List Elem} {i : Nat}
    (h : findTagIdx t cs = some i) :
    ∃ hi : i < cs.length, (cs.get ⟨i, hi⟩).tag = t ∧
      ∀ j (hj : j < cs.length), j < i → ¬ (cs.get ⟨j, hj⟩).tag = t := by
  induction cs generalizing i with
  | nil => simp [findTagIdx] at h
  | cons c cs ih =>
    by_cases hc : c.tag = t
    · simp only [findTagIdx, if_pos hc, Option.some.injEq] at h
      subst h
      exact ⟨by simp, by simpa using hc, fun j hj hji => by omega⟩
    · simp only [findTagIdx, if_neg hc, Option.map_eq_some'] at h
      obtain ⟨j, hj, rfl⟩ := h
      obtain ⟨hjlt, hget, hmin⟩ := ih hj
      refine ⟨by simpa using Nat.succ_lt_succ hjlt, by simpa using hget, ?_⟩
      intro k hk hkj
      match k with
      | 0 => simpa using hc
      | k + 1 =>
        have := hmin k (by simpa using hk) (by omega)
        simpa using this

theorem firstIndexIn_eq_find (cs : List Elem) (ts : List String) :
    firstIndexIn cs ts =
      (ts.find? (fun u => (findTagIdx u cs).isSome)).bind (fun t => findTagIdx t cs) := by
  induction ts with
  | nil => rfl
  | cons t ts ih =>
    cases hf : findTagIdx t cs with
    | none => simp [firstIndexIn, hf, List.find?_cons, ih]
    | some i => simp [firstIndexIn, hf, List.find?_cons]

theorem firstIndexIn_none {cs : List Elem} {ts : List String}
    (h : ∀ t ∈ ts, findTagIdx t cs = none) : firstIndexIn cs ts = none := by
  induction ts with
  | nil => rfl
  | cons t ts ih =>
    have ht := h t (List.mem_cons_self t ts)
    simp only [firstIndexIn, ht]
    exact ih fun u hu => h u (List.mem_cons_of_mem t hu)

theorem insertAt_eq_take_drop {k : Nat} {cs : List Elem} (e : Elem) (h : k ≤ cs.length) :
    insertAt k e cs = cs.take k ++ e :: cs.drop k := by
  induction cs generalizing k with
  | nil => simp [insertAt]
  | cons c cs ih =>
    match k with
    | 0 => rfl
    | k + 1 =>
      simp only [insertAt, List.take_succ_cons, List.drop_succ_cons, List.cons_append]
      rw [ih (by simpa using Nat.le_of_succ_le_succ h)]

/-- Modelled from the spec (section 4.4 wording of the claim): the index, in
document order, of the first existing child whose tag appears anywhere in
the successor set. -/
def docOrderFirstIdx (tagnames : List String) : List Elem → Option Nat
  | [] => none
  | c :: cs =>
    if tagnames.contains c.tag then some 0 else (docOrderFirstIdx tagnames cs).map (· + 1)

/-- Claim C2 counterexample: with children `[B, A]` and successor tags
`(A, B)`, the first child in document order whose tag is in the successor
set is `B` at index 0, but `insert_element_before` places the new child at
index 1 (immediately before `A`, because the tagnames are tested in the
order given), not immediately before `B`. -/
theorem c2_counterexample :
    docOrderFirstIdx ["A", "B"] [Elem.mk 0 "B", Elem.mk 1 "A"] = some 0 ∧
    (insert_element_before [Elem.mk 0 "B", Elem.mk 1 "A"] (Elem.mk 2 "X") ["A", "B"]).2 =
      [Elem.mk 0 "B", Elem.mk 2 "X", Elem.mk 1 "A"] ∧
    (insert_element_before [Elem.mk 0 "B", Elem.mk 1 "A"] (Elem.mk 2 "X") ["A", "B"]).2 ≠
      [Elem.mk 2 "X", Elem.mk 0 "B", Elem.mk 1 "A"] := by
  decide

/-- Claim C2 as amended: `insert_element_before(child, *tagnames)` returns
the child, and places it as follows: the successor tagnames are tested in
the order given; the first tagname that has a matching child determines
the position, and the child is inserted immediately before the
document-first child bearing that particular tag (not necessarily the
document-first child matching any tag in the set); when no tagname matches
any child, the child is appended last. -/
theorem c2_insert_element_before_amended (cs : List Elem) (e : Elem) (succs : List String) :
    (insert_element_before cs e succs).1 = e ∧
    ((∀ t ∈ succs, findTagIdx t cs = none) →
      (insert_element_before cs e succs).2 = cs ++ [e]) ∧
    (∀ t, succs.find? (fun u => (findTagIdx u cs).isSome) = some t →
      ∃ i, ∃ hi : i < cs.length, (cs.get ⟨i, hi⟩).tag = t ∧
        (∀ j (hj : j < cs.length), j < i → ¬ (cs.get ⟨j, hj⟩).tag = t) ∧
        (insert_element_before cs e succs).2 = cs.take i ++ e :: cs.drop i) := by
  refine ⟨?_, ?_, ?_⟩
  · unfold insert_element_before
    cases firstIndexIn cs succs <;> rfl
  · intro h
    unfold insert_element_before
    rw [firstIndexIn_none h]
  · intro t ht
    have hsome : (findTagIdx t cs).isSome := by
      have := List.find?_some ht
      simpa using this
    cases hf : findTagIdx t cs with
    | none => simp [hf] at hsome
    | some i =>
      have hfirst : firstIndexIn cs succs = some i := by
        rw [firstIndexIn_eq_find, ht]
        simpa using hf
      obtain ⟨hi, hget, hmin⟩ := findTagIdx_get hf
      refine ⟨i, hi, hget, hmin, ?_⟩
      unfold insert_element_before
      rw [hfirst]
      exact insertAt_eq_take_drop e (Nat.le_of_lt hi)

theorem c2_insert_element_before_amended_witness :
    (insert_element_before [Elem.mk 0 "Z"] (Elem.mk 1 "X") ["A"]).2 =
      [Elem.mk 0 "Z"] ++ [Elem.mk 1 "X"] :=
  (c2_insert_element_before_amended [Elem.mk 0 "Z"] (Elem.mk 1 "X") ["A"]).2.1 (by decide)

/-- Iterated calls to the generated adder `_add_x()`. -/
def addN (tag : String) (succs : List String) : Nat → PState → PState
  | 0, s => s
  | n + 1, s => addN tag succs n (add_child tag succs s).2

/-- The children the creator produces across successive calls: ids
`f, f + 1, ...`, all bearing the binding's tag. -/
def freshElems (tag : String) (f n : Nat) : List Elem :=
  (List.range n).map (fun i => ⟨f + i, tag⟩)

/-- Schema-order invariant for a repeating binding: no child bearing the
binding's tag sits at or after the insertion point `insert_element_before`
computes from the successor list.  Holds in particular whenever the parent
has no child with the binding's tag, and is preserved by the adder. -/
def tagBeforeSucc (tag : String) (succs : List String) (cs : List Elem) : Prop :=
  ∀ k, firstIndexIn cs succs = some k → ∀ c ∈ cs.drop k, ¬ c.tag = tag

theorem findall_eq_nil {tag : String} {cs : List Elem}
    (h : ∀ c ∈ cs, ¬ c.tag = tag) : findall tag cs = [] := by
  induction cs with
  | nil => rfl
  | cons c cs ih =>
    have hc := h c (List.mem_cons_self c cs)
    simp only [findall, if_neg hc]
    exact ih fun d hd => h d (List.mem_cons_of_mem c hd)

theorem findall_append_one {tag : String} {e : Elem} (he : e.tag = tag) (cs : List Elem) :
    findall tag (cs ++ [e]) = findall tag cs ++ [e] := by
  induction cs with
  | nil => simp [findall, he]
  | cons c cs ih =>
    by_cases hc : c.tag = tag <;> simp [findall, hc, ih]

theorem findall_insertAt {tag : String} {e : Elem} {cs : List Elem} {k : Nat}
    (he : e.tag = tag) (h : ∀ c ∈ cs.drop k, ¬ c.tag = tag) :
    findall tag (insertAt k e cs) = findall tag cs ++ [e] := by
  induction cs generalizing k with
  | nil => simp [insertAt, findall, he]
  | cons c cs ih =>
    match k with
    | 0 =>
      have hnil : findall tag (c :: cs) = [] := findall_eq_nil (by simpa using h)
      show findall tag (e :: c :: cs) = findall tag (c :: cs) ++ [e]
      rw [findall, if_pos he, hnil]
      rfl
    | k + 1 =>
      have hd : ∀ c ∈ cs.drop k, ¬ c.tag = tag := by simpa using h
      show findall tag (c :: insertAt k e cs) = findall tag (c :: cs) ++ [e]
      by_cases hc : c.tag = tag
      · rw [findall, if_pos hc, ih hd, findall, if_pos hc, List.cons_append]
      · rw [findall, if_neg hc, ih hd, findall, if_neg hc]

theorem findTagIdx_insertAt {t : String} {e : Elem} (cs : List Elem) (k : Nat)
    (he : ¬ e.tag = t) :
    findTagIdx t (insertAt k e cs)
      = (findTagIdx t cs).map (fun i => if k ≤ i then i + 1 else i) := by
  induction cs generalizing k with
  | nil => simp [insertAt, findTagIdx, he]
  | cons c cs ih =>
    match k with
    | 0 =>
      show findTagIdx t (e :: c :: cs) = _
      rw [findTagIdx, if_neg he]
      cases hf : findTagIdx t (c :: cs) with
      | none => rfl
      | some i =>
        show some (i + 1) = some (if 0 ≤ i then i + 1 else i)
        rw [if_pos (Nat.zero_le i)]
    | k + 1 =>
      by_cases hc : c.tag = t
      · simp [insertAt, findTagIdx, hc]
      · simp only [insertAt, findTagIdx, if_neg hc, ih, Option.map_map]
        cases hf : findTagIdx t cs with
        | none => rfl
        | some i =>
          simp only [Option.map_some', Function.comp_apply]
          congr 1
          by_cases hk : k ≤ i
          · rw [if_pos hk, if_pos (by omega)]
          · rw [if_neg hk, if_neg (by omega)]

theorem firstIndexIn_insertAt {e : Elem} {succs : List String} (cs : List Elem) (k : Nat)
    (he : ∀ t ∈ succs, ¬ e.tag = t) :
    firstIndexIn (insertAt k e cs) succs
      = (firstIndexIn cs succs).map (fun i => if k ≤ i then i + 1 else i) := by
  induction succs with
  | nil => rfl
  | cons t ts ih =>
    have het := he t (List.mem_cons_self t ts)
    simp only [firstIndexIn, findTagIdx_insertAt cs k het]
    cases hf : findTagIdx t cs with
    | some i => simp
    | none =>
      simp only [Option.map_none']
      exact ih fun u hu => he u (List.mem_cons_of_mem t hu)

theorem drop_insertAt {cs : List Elem} {k : Nat} (e : Elem) (h : k ≤ cs.length) :
    (insertAt k e cs).drop (k + 1) = cs.drop k := by
  induction cs generalizing k with
  | nil =>
    have : k = 0 := by simpa using h
    subst this
    rfl
  | cons c cs ih =>
    match k with
    | 0 => rfl
    | k + 1 =>
      simp only [insertAt, List.drop_succ_cons]
      exact ih (by simpa using Nat.le_of_succ_le_succ h)

theorem firstIndexIn_lt_length {cs : List Elem} {ts : List String} {k : Nat}
    (h : firstIndexIn cs ts = some k) : k < cs.length := by
  induction ts with
  | nil => simp [firstIndexIn] at h
  | cons t ts ih =>
    simp only [firstIndexIn] at h
    cases hf : findTagIdx t cs with
    | some i =>
      rw [hf] at h
      obtain rfl : i = k := by simpa using h
      obtain ⟨hi, -, -⟩ := findTagIdx_get hf
      exact hi
    | none =>
      rw [hf] at h
      exact ih h

theorem insertAt_self_length (e : Elem) (cs : List Elem) :
    insertAt cs.length e cs = cs ++ [e] := by
  induction cs with
  | nil => rfl
  | cons c cs ih => simp [insertAt, ih]

theorem add_child_step (tag : String) (succs : List String) (s : PState)
    (hts : tag ∉ succs) (hinv : tagBeforeSucc tag succs s.children) :
    findall tag (add_child tag succs s).2.children
        = findall tag s.children ++ [⟨s.fresh, tag⟩] ∧
      tagBeforeSucc tag succs (add_child tag succs s).2.children ∧
      (add_child tag succs s).2.fresh = s.fresh + 1 ∧
      (add_child tag succs s).1 = ⟨s.fresh, tag⟩ := by
  have hnotsucc : ∀ t ∈ succs, ¬ (Elem.mk s.fresh tag).tag = t := by
    intro t htmem heq
    apply hts
    rw [show tag = t from heq]
    exact htmem
  have hch : (add_child tag succs s).2.children
      = (insert_element_before s.children ⟨s.fresh, tag⟩ succs).2 := rfl
  refine ⟨?_, ?_, rfl, rfl⟩
  · rw [hch]
    unfold insert_element_before
    cases hf : firstIndexIn s.children succs with
    | none =>
      show findall tag (s.children ++ [Elem.mk s.fresh tag]) = _
      exact findall_append_one (e := ⟨s.fresh, tag⟩) rfl s.children
    | some k =>
      show findall tag (insertAt k (Elem.mk s.fresh tag) s.children) = _
      exact findall_insertAt (e := ⟨s.fresh, tag⟩) rfl (hinv k hf)
  · rw [hch]
    unfold insert_element_before
    cases hf : firstIndexIn s.children succs with
    | none =>
      show tagBeforeSucc tag succs (s.children ++ [Elem.mk s.fresh tag])
      intro k hk
      rw [show s.children ++ [Elem.mk s.fresh tag]
            = insertAt s.children.length ⟨s.fresh, tag⟩ s.children
          from (insertAt_self_length _ _).symm,
        firstIndexIn_insertAt _ _ hnotsucc, hf] at hk
      exact Option.noConfusion hk
    | some k =>
      show tagBeforeSucc tag succs (insertAt k (Elem.mk s.fresh tag) s.children)
      have hk_le : k ≤ s.children.length := Nat.le_of_lt (firstIndexIn_lt_length hf)
      have hdrop := hinv k hf
      intro j hj
      rw [firstIndexIn_insertAt _ _ hnotsucc, hf] at hj
      simp only [Option.map_some', if_pos (Nat.le_refl k), Option.some.injEq] at hj
      subst hj
      rw [drop_insertAt _ hk_le]
      exact hdrop

theorem freshElems_succ (tag : String) (f n : Nat) :
    freshElems tag f (n + 1) = ⟨f, tag⟩ :: freshElems tag (f + 1) n := by
  simp only [freshElems, List.range_succ_eq_map, List.map_cons, Nat.add_zero, List.map_map]
  congr 1
  apply List.map_congr_left
  intro i _
  simp only [Function.comp_apply, Elem.mk.injEq, and_true]
  omega

/-- Claim C5: for a ZeroOrMore/OneOrMore binding whose parent satisfies the
schema-order invariant (in particular any parent with no child of the
binding's tag), N calls to the generated adder extend the `x_lst` list
getter's result by exactly the N newly created children, in call order,
each placed after every same-tag sibling that existed before it; when the
parent starts with no such child, the list getter returns exactly N
children. -/
theorem c5_adder_preserves_call_order (tag : String) (succs : List String)
    (s : PState) (n : Nat) (hts : tag ∉ succs)
    (hinv : tagBeforeSucc tag succs s.children) :
    findall tag (addN tag succs n s).children
        = findall tag s.children ++ freshElems tag s.fresh n ∧
      (findall tag s.children = [] →
        (findall tag (addN tag succs n s).children).length = n) := by
  have main : ∀ n s, tag ∉ succs → tagBeforeSucc tag succs s.children →
      findall tag (addN tag succs n s).children
        = findall tag s.children ++ freshElems tag s.fresh n := by
    intro n
    induction n with
    | zero => intro s _ _; simp [addN, freshElems]
    | succ n ih =>
      intro s hts hinv
      obtain ⟨hfind, hinv2, hfresh, -⟩ := add_child_step tag succs s hts hinv
      have := ih (add_child tag succs s).2 hts hinv2
      rw [addN, this, hfind, hfresh, freshElems_succ]
      simp
  refine ⟨main n s hts hinv, fun hnil => ?_⟩
  rw [main n s hts hinv, hnil]
  simp [freshElems]

theorem c5_adder_preserves_call_order_witness :
    findall "x" (addN "x" [] 2 ⟨[⟨0, "q"⟩], 1⟩).children
        = findall "x" [⟨0, "q"⟩] ++ freshElems "x" 1 2 ∧
      (findall "x" ([⟨0, "q"⟩] : List Elem) = [] →
        (findall "x" (addN "x" [] 2 ⟨[⟨0, "q"⟩], 1⟩).children).length = 2) :=
  c5_adder_preserves_call_order "x" [] ⟨[⟨0, "q"⟩], 1⟩ 2 (by decide)
    (fun k hk => Option.noConfusion hk)

/-- The generated `get_or_change_to_x()` body from
`Choice._add_get_or_change_to_method` (src lines 439-447): if the member's
property finds an existing child, return it unchanged; otherwise call the
group remover (`_remove_eg_x`, which runs `remove_all` over every member
tag, src lines 627-629) and then the member's generated adder. -/
def get_or_change_to (memberTag : String) (groupTags : List String)
    (succs : List String) (s : PState) : Elem × PState :=
  match findChild memberTag s.children with
  | some c => (c, s)
  | none =>
    add_child memberTag succs ⟨remove_all s.children groupTags, s.fresh⟩

theorem remove_all_subset {cs : List Elem} {ts : List String} :
    ∀ c ∈ remove_all cs ts, c ∈ cs := by
  induction ts generalizing cs with
  | nil => intro c hc; exact hc
  | cons t ts ih =>
    intro c hc
    have hc2 : c ∈ remove_all (cs.filter (fun d => ¬ d.tag = t)) ts := hc
    exact (List.mem_filter.mp (ih c hc2)).1

theorem remove_all_tag_not_mem {cs : List Elem} {ts : List String} :
    ∀ c ∈ remove_all cs ts, ¬ c.tag ∈ ts := by
  induction ts generalizing cs with
  | nil => intro c _ h; cases h
  | cons t ts ih =>
    intro c hc hmem
    have hc2 : c ∈ remove_all (cs.filter (fun d => ¬ d.tag = t)) ts := hc
    rcases List.mem_cons.mp hmem with h | h
    · have hsub := remove_all_subset c hc2
      have := (List.mem_filter.mp hsub).2
      simp only [decide_not, Bool.not_eq_eq_eq_not, Bool.not_true, decide_eq_false_iff_not] at this
      exact this h
    · exact ih c hc2 h

theorem filter_eq_nil_of {p : Elem → Bool} {cs : List Elem}
    (h : ∀ c ∈ cs, ¬ p c = true) : cs.filter p = [] := by
  induction cs with
  | nil => rfl
  | cons c cs ih =>
    rw [List.filter_cons, if_neg (h c (List.mem_cons_self c cs))]
    exact ih fun d hd => h d (List.mem_cons_of_mem c hd)

theorem filter_insertAt_of_none {p : Elem → Bool} {e : Elem} {cs : List Elem} {k : Nat}
    (hp : p e = true) (h : ∀ c ∈ cs, ¬ p c = true) :
    (insertAt k e cs).filter p = [e] := by
  induction cs generalizing k with
  | nil => simp [insertAt, List.filter_cons, hp]
  | cons c cs ih =>
    have hc := h c (List.mem_cons_self c cs)
    have htail : ∀ d ∈ cs, ¬ p d = true := fun d hd => h d (List.mem_cons_of_mem c hd)
    match k with
    | 0 =>
      show List.filter p (e :: c :: cs) = [e]
      rw [List.filter_cons, if_pos hp, List.filter_cons, if_neg hc, filter_eq_nil_of htail]
    | k + 1 =>
      show List.filter p (c :: insertAt k e cs) = [e]
      rw [List.filter_cons, if_neg hc]
      exact ih htail

theorem filter_insert_of_none {p : Elem → Bool} {e : Elem} {cs : List Elem}
    (ss : List String) (hp : p e = true) (h : ∀ c ∈ cs, ¬ p c = true) :
    ((insert_element_before cs e ss).2).filter p = [e] := by
  unfold insert_element_before
  cases firstIndexIn cs ss with
  | none =>
    show (cs ++ [e]).filter p = [e]
    rw [List.filter_append, filter_eq_nil_of h]
    simp [List.filter_cons, hp]
  | some k => exact filter_insertAt_of_none hp h

theorem findall_append (t : String) (as bs : List Elem) :
    findall t (as ++ bs) = findall t as ++ findall t bs := by
  induction as with
  | nil => rfl
  | cons c cs ih =>
    by_cases hc : c.tag = t <;> simp [findall, hc, ih]

theorem findall_insertAt_ne {t : String} {e : Elem} {cs : List Elem} {k : Nat}
    (he : ¬ e.tag = t) : findall t (insertAt k e cs) = findall t cs := by
  induction cs generalizing k with
  | nil => simp [insertAt, findall, he]
  | cons c cs ih =>
    match k with
    | 0 =>
      show findall t (e :: c :: cs) = findall t (c :: cs)
      rw [findall, if_neg he]
    | k + 1 =>
      show findall t (c :: insertAt k e cs) = findall t (c :: cs)
      by_cases hc : c.tag = t
      · rw [findall, if_pos hc, ih, findall, if_pos hc]
      · rw [findall, if_neg hc, ih, findall, if_neg hc]

theorem findall_insert_ne {t : String} {e : Elem} {cs : List Elem}
    (ss : List String) (he : ¬ e.tag = t) :
    findall t (insert_element_before cs e ss).2 = findall t cs := by
  unfold insert_element_before
  cases firstIndexIn cs ss with
  | none =>
    show findall t (cs ++ [e]) = findall t cs
    rw [findall_append]
    simp [findall, he]
  | some k => exact findall_insertAt_ne he

theorem findall_insert_eq {t : String} {e : Elem} {cs : List Elem}
    (ss : List String) (he : e.tag = t) (h : ∀ c ∈ cs, ¬ c.tag = t) :
    findall t (insert_element_before cs e ss).2 = [e] := by
  unfold insert_element_before
  cases firstIndexIn cs ss with
  | none =>
    show findall t (cs ++ [e]) = [e]
    rw [findall_append, findall_eq_nil h]
    simp [findall, he]
  | some k =>
    show findall t (insertAt k e cs) = [e]
    rw [findall_insertAt he (by intro c hc; exact h c (List.mem_of_mem_drop hc)),
      findall_eq_nil h]
    rfl

theorem findChild_eq_head (t : String) (cs : List Elem) :
    findChild t cs = (findall t cs).head? := by
  induction cs with
  | nil => rfl
  | cons c cs ih =>
    by_cases hc : c.tag = t <;> simp [findChild, findall, hc, ih]

theorem get_or_change_to_add (tx ty : String) (succs : List String) (s1 : PState)
    (hne : tx ≠ ty) (h : findChild ty s1.children = none) :
    ((get_or_change_to ty [tx, ty] succs s1).1).tag = ty ∧
    ((get_or_change_to ty [tx, ty] succs s1).2).children.filter
        (fun c => c.tag ∈ [tx, ty]) = [(get_or_change_to ty [tx, ty] succs s1).1] ∧
    findall tx ((get_or_change_to ty [tx, ty] succs s1).2).children = [] ∧
    get_or_change_to ty [tx, ty] succs ((get_or_change_to ty [tx, ty] succs s1).2)
      = ((get_or_change_to ty [tx, ty] succs s1).1,
         (get_or_change_to ty [tx, ty] succs s1).2) := by
  have hrem : ∀ c ∈ remove_all s1.children [tx, ty], ¬ c.tag ∈ ([tx, ty] : List String) :=
    fun c hc => remove_all_tag_not_mem c hc
  have hcall : get_or_change_to ty [tx, ty] succs s1
      = add_child ty succs ⟨remove_all s1.children [tx, ty], s1.fresh⟩ := by
    unfold get_or_change_to
    rw [h]
  have hadd1 : (add_child ty succs ⟨remove_all s1.children [tx, ty], s1.fresh⟩).1
      = ⟨s1.fresh, ty⟩ := rfl
  have hadd2 : (add_child ty succs ⟨remove_all s1.children [tx, ty], s1.fresh⟩).2.children
      = (insert_element_before (remove_all s1.children [tx, ty]) ⟨s1.fresh, ty⟩ succs).2 :=
    rfl
  have hy : findall ty (insert_element_before (remove_all s1.children [tx, ty])
        ⟨s1.fresh, ty⟩ succs).2 = [⟨s1.fresh, ty⟩] :=
    findall_insert_eq succs rfl
      (fun c hc hcy => hrem c hc (by rw [hcy]; simp))
  have hfc : findChild ty (insert_element_before (remove_all s1.children [tx, ty])
        ⟨s1.fresh, ty⟩ succs).2 = some ⟨s1.fresh, ty⟩ := by
    rw [findChild_eq_head, hy]
    rfl
  refine ⟨by rw [hcall, hadd1], ?_, ?_, ?_⟩
  · rw [hcall, hadd1, hadd2]
    exact filter_insert_of_none succs (by simp)
      (fun c hc => by simpa using hrem c hc)
  · rw [hcall, hadd2]
    rw [findall_insert_ne succs (fun hh => hne (by simpa using hh.symm))]
    exact findall_eq_nil (fun c hc hcx => hrem c hc (by rw [hcx]; simp))
  · rw [hcall, hadd1]
    unfold get_or_change_to
    rw [show findChild ty (add_child ty succs
          ⟨remove_all s1.children [tx, ty], s1.fresh⟩).2.children
        = some ⟨s1.fresh, ty⟩ from hadd2 ▸ hfc]

/-- Claim C4: for a choice group with members X and Y on a parent obeying
the group invariant (X and Y not both present), calling
`get_or_change_to_X()` and then `get_or_change_to_Y()` leaves exactly one
child whose tag is any group-member tag — the returned Y — with every
other member removed; and a further `get_or_change_to_Y()` returns that
same Y element and leaves the parent untouched. -/
theorem c4_choice_group_exclusive (tx ty : String) (succs : List String) (s : PState)
    (hne : tx ≠ ty)
    (hboth : ¬ ((findChild tx s.children).isSome ∧ (findChild ty s.children).isSome)) :
    ((get_or_change_to ty [tx, ty] succs
        (get_or_change_to tx [tx, ty] succs s).2).1).tag = ty ∧
    ((get_or_change_to ty [tx, ty] succs
        (get_or_change_to tx [tx, ty] succs s).2).2).children.filter
        (fun c => c.tag ∈ [tx, ty])
      = [(get_or_change_to ty [tx, ty] succs
          (get_or_change_to tx [tx, ty] succs s).2).1] ∧
    findall tx ((get_or_change_to ty [tx, ty] succs
        (get_or_change_to tx [tx, ty] succs s).2).2).children = [] ∧
    get_or_change_to ty [tx, ty] succs
        ((get_or_change_to ty [tx, ty] succs
          (get_or_change_to tx [tx, ty] succs s).2).2)
      = ((get_or_change_to ty [tx, ty] succs
          (get_or_change_to tx [tx, ty] succs s).2).1,
         (get_or_change_to ty [tx, ty] succs
          (get_or_change_to tx [tx, ty] succs s).2).2) := by
  have hnone : findChild ty ((get_or_change_to tx [tx, ty] succs s).2).children = none := by
    cases hc1 : findChild tx s.children with
    | some c =>
      have hs1 : (get_or_change_to tx [tx, ty] succs s).2 = s := by
        unfold get_or_change_to
        rw [hc1]
      rw [hs1]
      rcases hty : findChild ty s.children with _ | d
      · rfl
      · exact absurd ⟨by rw [hc1]; rfl, by rw [hty]; rfl⟩ hboth
    | none =>
      have hs1 : (get_or_change_to tx [tx, ty] succs s).2
          = (add_child tx succs ⟨remove_all s.children [tx, ty], s.fresh⟩).2 := by
        unfold get_or_change_to
        rw [hc1]
      have hch : (add_child tx succs ⟨remove_all s.children [tx, ty], s.fresh⟩).2.children
          = (insert_element_before (remove_all s.children [tx, ty]) ⟨s.fresh, tx⟩ succs).2 :=
        rfl
      rw [hs1, hch, findChild_eq_head,
        findall_insert_ne succs (fun hh => hne (by simpa using hh)),
        findall_eq_nil (fun c hc hcy =>
          remove_all_tag_not_mem c hc (by rw [hcy]; simp))]
      rfl
  exact get_or_change_to_add tx ty succs (get_or_change_to tx [tx, ty] succs s).2 hne hnone

theorem c4_choice_group_exclusive_witness :
    ((get_or_change_to "a:y" ["a:x", "a:y"] []
        (get_or_change_to "a:x" ["a:x", "a:y"] [] ⟨[], 0⟩).2).1).tag = "a:y" ∧
    ((get_or_change_to "a:y" ["a:x", "a:y"] []
        (get_or_change_to "a:x" ["a:x", "a:y"] [] ⟨[], 0⟩).2).2).children.filter
        (fun c => c.tag ∈ ["a:x", "a:y"])
      = [(get_or_change_to "a:y" ["a:x", "a:y"] []
          (get_or_change_to "a:x" ["a:x", "a:y"] [] ⟨[], 0⟩).2).1] ∧
    findall "a:x" ((get_or_change_to "a:y" ["a:x", "a:y"] []
        (get_or_change_to "a:x" ["a:x", "a:y"] [] ⟨[], 0⟩).2).2).children = [] ∧
    get_or_change_to "a:y" ["a:x", "a:y"] []
        ((get_or_change_to "a:y" ["a:x", "a:y"] []
          (get_or_change_to "a:x" ["a:x", "a:y"] [] ⟨[], 0⟩).2).2)
      = ((get_or_change_to "a:y" ["a:x", "a:y"] []
          (get_or_change_to "a:x" ["a:x", "a:y"] [] ⟨[], 0⟩).2).1,
         (get_or_change_to "a:y" ["a:x", "a:y"] []
          (get_or_change_to "a:x" ["a:x", "a:y"] [] ⟨[], 0⟩).2).2) :=
  c4_choice_group_exclusive "a:x" "a:y" [] ⟨[], 0⟩ (by decide) (by decide)

/-- A member attached to an element class: a hand-written method, a
generated default method, or a property descriptor. -/
inductive Member where
  | handwritten (tag : Nat)
  | generated (desc : String)
  | propertyDesc (desc : String)
deriving DecidableEq, Repr

/-- An element class's member dictionary (name to member), first match
authoritative (names are unique in a Python class dictionary). -/
abbrev ClassDict := List (String × Member)

/-- `hasattr(element_cls, name)`. -/
def hasattrC : ClassDict → String → Bool
  | [], _ => false
  | kv :: rest, n => kv.1 = n || hasattrC rest n

/-- `getattr(element_cls, name)`: the member invoked when a generated
operation calls `name` on the class. -/
def getattrC : ClassDict → String → Option Member
  | [], _ => none
  | kv :: rest, n => if kv.1 = n then some kv.2 else getattrC rest n

/-- `setattr(element_cls, name, value)`: replace the existing entry for
`name`, or add one. -/
def setattrC : ClassDict → String → Member → ClassDict
  | [], n, m => [(n, m)]
  | kv :: rest, n, m => if kv.1 = n then (n, m) :: rest else kv :: setattrC rest n m

/-- `_BaseChildElement._add_to_class` (src lines 358-362): attach `method`
under `name` unless `name` is already defined on the class. -/
def add_to_class (cls : ClassDict) (n : String) (m : Member) : ClassDict :=
  if hasattrC cls n then cls else setattrC cls n m

/-- `_BaseChildElement._insert_method_name` (src lines 389-391): the name
under which the generated inserter is both attached and looked up by the
generated adder: `"_inset_%s" % self._prop_name[::-1]`. -/
def insert_method_name (prop : String) : String :=
  "_inset_" ++ String.mk prop.data.reverse

/-- Method names a ZeroOrOne binding attaches via `_add_to_class` during
`populate_class_members` (src lines 561-569): creator, inserter, adder,
get-or-adder (attached under the binding's tag name, src line 584) and
remover. -/
def zeroOrOneMethodNames (prop nsptagname : String) : List String :=
  [ "_new_" ++ prop, insert_method_name prop, "_add_" ++ prop,
    get_or_adder_attached_name nsptagname, "_remove_" ++ prop ]

/-- `ZeroOrOne.populate_class_members` (src lines 561-569) as it acts on
the class dictionary: the getter property is assigned unconditionally
under the property name (src lines 323-330, overwriting the binding
declaration), then creator, inserter, adder, get-or-adder and remover are
attached via `_add_to_class` in source order. -/
def materializeZeroOrOne (cls : ClassDict) (prop nsptagname : String) : ClassDict :=
  let c1 := setattrC cls prop (.propertyDesc "getter")
  let c2 := add_to_class c1 ("_new_" ++ prop) (.generated "creator")
  let c3 := add_to_class c2 (insert_method_name prop) (.generated "inserter")
  let c4 := add_to_class c3 ("_add_" ++ prop) (.generated "adder")
  let c5 := add_to_class c4 (get_or_adder_attached_name nsptagname) (.generated "get_or_add")
  add_to_class c5 ("_remove_" ++ prop) (.generated "remover")

theorem getattrC_setattrC_ne {n n2 : String} (cls : ClassDict) (m2 : Member)
    (h : ¬ n = n2) : getattrC (setattrC cls n2 m2) n = getattrC cls n := by
  have hn2n : ¬ n2 = n := fun hh => h hh.symm
  induction cls with
  | nil =>
    show (if n2 = n then some m2 else none) = none
    rw [if_neg hn2n]
  | cons kv rest ih =>
    by_cases hkv : kv.1 = n2
    · simp only [setattrC, if_pos hkv, getattrC, if_neg hn2n]
      rw [if_neg (show ¬ kv.1 = n from fun hh => hn2n (hkv ▸ hh))]
    · simp only [setattrC, if_neg hkv, getattrC, ih]

theorem hasattrC_of_getattrC {cls : ClassDict} {n : String} {m : Member}
    (h : getattrC cls n = some m) : hasattrC cls n = true := by
  induction cls with
  | nil => cases h
  | cons kv rest ih =>
    by_cases hkv : kv.1 = n
    · simp [hasattrC, hkv]
    · rw [getattrC, if_neg hkv] at h
      simp [hasattrC, ih h]

theorem getattrC_add_to_class {cls : ClassDict} {n : String} {m : Member}
    (n2 : String) (m2 : Member) (h : getattrC cls n = some m) :
    getattrC (add_to_class cls n2 m2) n = some m := by
  unfold add_to_class
  by_cases hh : hasattrC cls n2 = true
  · rw [if_pos hh]
    exact h
  · rw [if_neg hh]
    have hne : ¬ n = n2 := fun hEq => hh (hEq ▸ hasattrC_of_getattrC h)
    rw [getattrC_setattrC_ne cls m2 hne]
    exact h

/-- Claim C9: for every generated method name of a ZeroOrOne binding that
differs from the binding's property name (the property descriptor is by
design assigned unconditionally over the declaration that occupies that
name), if the element class already defines a member under that name,
materialization leaves that member in place — `_add_to_class` attaches
nothing over an existing name — so `getattr` by that name, which is how
the other generated operations invoke it, still yields the hand-written
member. -/
theorem c9_materialization_preserves_overrides (cls : ClassDict)
    (prop nsptagname n : String) (m : Member)
    (_hmem : n ∈ zeroOrOneMethodNames prop nsptagname) (hprop : ¬ n = prop)
    (hdef : getattrC cls n = some m) :
    getattrC (materializeZeroOrOne cls prop nsptagname) n = some m := by
  unfold materializeZeroOrOne
  have h1 : getattrC (setattrC cls prop (.propertyDesc "getter")) n = some m := by
    rw [getattrC_setattrC_ne cls _ hprop]
    exact hdef
  exact getattrC_add_to_class _ _ (getattrC_add_to_class _ _
    (getattrC_add_to_class _ _ (getattrC_add_to_class _ _
      (getattrC_add_to_class _ _ h1))))

theorem c9_materialization_preserves_overrides_witness :
    getattrC (materializeZeroOrOne [("_add_ln", Member.handwritten 7)] "ln" "a:ln")
        "_add_ln"
      = some (Member.handwritten 7) :=
  c9_materialization_preserves_overrides [("_add_ln", Member.handwritten 7)]
    "ln" "a:ln" "_add_ln" (Member.handwritten 7) (by decide) (by decide) (by decide)

/-- An element as the attribute bindings see it: its tag (used in error
messages) and its attribute mapping (qualified name to string value,
unique keys, first match authoritative). -/
structure AttrElem where
  tag : String
  attrib : List (String × String)
deriving DecidableEq, Repr

/-- `obj.get(clark_name)`: the attribute's string value, or `None`. -/
def attrGet : List (String × String) → String → Option String
  | [], _ => none
  | kv :: rest, n => if kv.1 = n then some kv.2 else attrGet rest n

/-- `obj.set(clark_name, str_value)`: replace or add the attribute. -/
def attrSet : List (String × String) → String → String → List (String × String)
  | [], n, v => [(n, v)]
  | kv :: rest, n, v => if kv.1 = n then (n, v) :: rest else kv :: attrSet rest n v

/-- `del obj.attrib[clark_name]`: drop the attribute. -/
def attrDel (l : List (String × String)) (n : String) : List (String × String) :=
  l.filter (fun kv => ¬ kv.1 = n)

/-- `clark_name in obj.attrib`. -/
def attrMem (l : List (String × String)) (n : String) : Bool :=
  (attrGet l n).isSome

/-- `OptionalAttribute._getter` (src lines 201-212): an absent attribute
yields the declared default; a present one is decoded by the codec. -/
def optAttrGet {V : Type} (fromXml : String → V) (default : V) (name : String)
    (e : AttrElem) : V :=
  match attrGet e.attrib name with
  | none => default
  | some s => fromXml s

/-- `OptionalAttribute._setter` (src lines 214-228): assigning the declared
default removes the attribute when present and returns (no-op when
absent); any other value is encoded by the codec and written. -/
def optAttrSet {V : Type} [DecidableEq V] (toXml : V → String) (default : V)
    (name : String) (e : AttrElem) (value : V) : AttrElem :=
  if value = default then
    if attrMem e.attrib name then ⟨e.tag, attrDel e.attrib name⟩ else e
  else ⟨e.tag, attrSet e.attrib name (toXml value)⟩

/-- `InvalidXmlError`, carrying its message. -/
structure InvalidXmlError where
  msg : String
deriving DecidableEq, Repr

/-- `RequiredAttribute._getter` (src lines 240-253): an absent attribute
raises `InvalidXmlError` naming the attribute and the owning element's
tag; a present one is decoded by the codec. -/
def reqAttrGet {V : Type} (fromXml : String → V) (name : String) (e : AttrElem) :
    Except InvalidXmlError V :=
  match attrGet e.attrib name with
  | none =>
    .error ⟨"required '" ++ name ++ "' attribute not present on element " ++ e.tag⟩
  | some s => .ok (fromXml s)

theorem attrGet_attrDel (l : List (String × String)) (n : String) :
    attrGet (attrDel l n) n = none := by
  induction l with
  | nil => rfl
  | cons kv rest ih =>
    by_cases hkv : kv.1 = n
    · simpa [attrDel, List.filter_cons, hkv] using ih
    · simpa [attrDel, attrGet, List.filter_cons, hkv] using ih

theorem attrGet_attrSet (l : List (String × String)) (n v : String) :
    attrGet (attrSet l n v) n = some v := by
  induction l with
  | nil => simp [attrSet, attrGet]
  | cons kv rest ih =>
    by_cases hkv : kv.1 = n
    · simp [attrSet, attrGet, hkv]
    · simp [attrSet, attrGet, hkv, ih]

/-- Claim C6: assigning the declared default to an Optional attribute
removes the attribute when present and leaves the element unchanged when
absent; afterwards the attribute is absent and the property reads back the
default. -/
theorem c6_optional_set_default {V : Type} [DecidableEq V]
    (fromXml : String → V) (toXml : V → String) (d : V) (name : String) (e : AttrElem) :
    attrGet (optAttrSet toXml d name e d).attrib name = none ∧
    (attrGet e.attrib name = none → optAttrSet toXml d name e d = e) ∧
    optAttrGet fromXml d name (optAttrSet toXml d name e d) = d := by
  unfold optAttrSet
  rw [if_pos rfl]
  cases hm : attrGet e.attrib name with
  | some s =>
    have hmem : attrMem e.attrib name = true := by simp [attrMem, hm]
    rw [if_pos hmem]
    refine ⟨attrGet_attrDel e.attrib name,
      fun hnone => Option.noConfusion hnone, ?_⟩
    unfold optAttrGet
    rw [show attrGet (AttrElem.mk e.tag (attrDel e.attrib name)).attrib name
        = none from attrGet_attrDel e.attrib name]
  | none =>
    have hmem : ¬ attrMem e.attrib name = true := by simp [attrMem, hm]
    rw [if_neg hmem]
    refine ⟨hm, fun _ => rfl, ?_⟩
    unfold optAttrGet
    rw [hm]

theorem c6_optional_set_default_witness :
    attrGet (optAttrSet (fun s => s) "" "w:val"
        ⟨"p:sp", [("w:val", "x")]⟩ "").attrib "w:val" = none ∧
    (attrGet (AttrElem.mk "p:sp" [("w:val", "x")]).attrib "w:val" = none →
      optAttrSet (fun s => s) "" "w:val" ⟨"p:sp", [("w:val", "x")]⟩ ""
        = ⟨"p:sp", [("w:val", "x")]⟩) ∧
    optAttrGet (fun s => s) "" "w:val"
        (optAttrSet (fun s => s) "" "w:val" ⟨"p:sp", [("w:val", "x")]⟩ "") = "" :=
  c6_optional_set_default (fun s => s) (fun s => s) "" "w:val" ⟨"p:sp", [("w:val", "x")]⟩

/-- Claim C7: reading a Required attribute that is absent raises
`InvalidXmlError` whose message names the attribute and the owning
element's tag (never a default value); when present, the property returns
the codec-decoded value. -/
theorem c7_required_getter_raises {V : Type} (fromXml : String → V)
    (name : String) (e : AttrElem) :
    (attrGet e.attrib name = none →
      reqAttrGet fromXml name e = .error
        ⟨"required '" ++ name ++ "' attribute not present on element " ++ e.tag⟩) ∧
    (∀ s, attrGet e.attrib name = some s →
      reqAttrGet fromXml name e = .ok (fromXml s)) := by
  constructor
  · intro h
    unfold reqAttrGet
    rw [h]
  · intro s h
    unfold reqAttrGet
    rw [h]

theorem c7_required_getter_raises_witness :
    reqAttrGet (fun s => s) "id" ⟨"p:sp", []⟩ = .error
      ⟨"required '" ++ "id" ++ "' attribute not present on element " ++ "p:sp"⟩ :=
  (c7_required_getter_raises (fun s => s) "id" ⟨"p:sp", []⟩).1 rfl

/-- Claim C8: for an Optional attribute, assigning a non-default value `v`
whose codec round-trips (`from_xml (to_xml v) = v`) and reading the
property back yields exactly `v`. -/
theorem c8_optional_roundtrip {V : Type} [DecidableEq V]
    (fromXml : String → V) (toXml : V → String) (d v : V) (name : String)
    (e : AttrElem) (hne : ¬ v = d) (hrt : fromXml (toXml v) = v) :
    optAttrGet fromXml d name (optAttrSet toXml d name e v) = v := by
  unfold optAttrSet
  rw [if_neg hne]
  unfold optAttrGet
  rw [show attrGet (AttrElem.mk e.tag (attrSet e.attrib name (toXml v))).attrib name
      = some (toXml v) from attrGet_attrSet e.attrib name (toXml v)]
  exact hrt

theorem c8_optional_roundtrip_witness :
    optAttrGet (fun s => s) "" "n"
        (optAttrSet (fun s => s) "" "n" ⟨"t", []⟩ "5") = "5" :=
  c8_optional_roundtrip (fun s => s) (fun s => s) "" "5" "n" ⟨"t", []⟩
    (by decide) rfl

/-- Python `\w` (word character) or `:`: the characters the `[\w:]` class
of `XmlString._xml_elm_line_patt` (src line 64) accepts in a tag name. -/
def isTagChar (c : Char) : Bool := c.isAlphanum || c = '_' || c = ':'

/-- Parsed fields of one serialized-XML element line: the four groups of
`XmlString._xml_elm_line_patt` (src line 64) — front (leading spaces, `<`,
optional `/`, tag name), attrs (the lazy middle), close (`/>` or `>`) and
the optional trailing `text</tag>` group (Python `None` when absent). -/
structure ParsedLine where
  front : List Char
  attrs : List Char
  close : List Char
  text : Option (List Char)
deriving DecidableEq, Repr

/-- Groups 2 and 3 of the pattern, the lazy pair `(.*?)(/?>)`: the earliest
position where `/>` (tried first) or `>` matches ends the attrs group. -/
def findClose : List Char → Option (List Char × List Char × List Char)
  | [] => none
  | '/' :: '>' :: r => some ([], ['/', '>'], r)
  | '>' :: r => some ([], ['>'], r)
  | c :: cs =>
    match findClose cs with
    | some (a, cl, r) => some (c :: a, cl, r)
    | none => none

/-- Group 4 of the pattern, `([^<]*</[\w:]+>)?`: greedy non-`<` text
followed by a closing tag; Python `None` when that does not match (the
group is optional, so the overall match still succeeds). -/
def parseText (r : List Char) : Option (List Char) :=
  let t := r.takeWhile (fun c => ¬ c = '<')
  match r.dropWhile (fun c => ¬ c = '<') with
  | '<' :: '/' :: r2 =>
    let name := r2.takeWhile isTagChar
    if name.isEmpty then none
    else
      match r2.dropWhile isTagChar with
      | '>' :: _ => some (t ++ '<' :: '/' :: name ++ ['>'])
      | _ => none
  | _ => none

/-- `XmlString._parse_line` (src lines 107-113) via
`_xml_elm_line_patt.match`: greedy leading spaces, `<`, optional `/`, a
nonempty `[\w:]+` tag name (together group 1), then the lazy attrs and
close-delimiter groups and the optional trailing-text group; `none` models
the `ValueError` raised when the pattern does not match the line. -/
def parse_line (l : List Char) : Option ParsedLine :=
  let sp := l.takeWhile (fun c => c = ' ')
  match l.dropWhile (fun c => c = ' ') with
  | '<' :: r1 =>
    let slash : List Char :=
      match r1 with
      | '/' :: _ => ['/']
      | _ => []
    let r2 : List Char :=
      match r1 with
      | '/' :: r => r
      | r => r
    let name := r2.takeWhile isTagChar
    if name.isEmpty then none
    else
      match findClose (r2.dropWhile isTagChar) with
      | none => none
      | some (attrs, close, rest) =>
        some ⟨sp ++ '<' :: (slash ++ name), attrs, close, parseText rest⟩
  | _ => none

/-- Python `attrs.split()` with no argument: split on whitespace runs with
no empty pieces, which also subsumes the preceding `strip()`. -/
def splitWsAux : List Char → List Char → List (List Char)
  | [], acc => if acc.isEmpty then [] else [acc.reverse]
  | c :: r, acc =>
    if c.isWhitespace then
      if acc.isEmpty then splitWsAux r [] else acc.reverse :: splitWsAux r []
    else splitWsAux r (c :: acc)

/-- Python `attrs.split()`. -/
def splitWs (l : List Char) : List (List Char) := splitWsAux l []

/-- Lexicographic comparison of char lists by code point: the order Python
`sorted` applies to the attribute strings. -/
def strLeB : List Char → List Char → Bool
  | [], _ => true
  | _ :: _, [] => false
  | a :: as, b :: bs =>
    if a.toNat < b.toNat then true
    else if b.toNat < a.toNat then false
    else strLeB as bs

/-- `XmlString._attr_seq` (src lines 81-88): strip, split on whitespace,
sort the attribute strings. -/
def attr_seq (attrs : List Char) : List (List Char) :=
  List.insertionSort (fun a b => strLeB a b = true) (splitWs attrs)

/-- `XmlString._eq_elm_strs` (src lines 90-105): parse both lines (a parse
failure raises `ValueError`, modeled as `Except.error`), then require
equal front, equal sorted attr sequences, equal close delimiter and equal
trailing text, in source order. -/
def eq_elm_strs (line line2 : List Char) : Except Unit Bool :=
  match parse_line line, parse_line line2 with
  | some g, some g2 =>
    .ok (decide (g.front = g2.front) && decide (attr_seq g.attrs = attr_seq g2.attrs)
      && decide (g.close = g2.close) && decide (g.text = g2.text))
  | _, _ => .error ()

/-- Python `str.splitlines()` over `\n`-separated text: helper carrying the
current line in reverse; a trailing newline produces no empty final line. -/
def splitNl : List Char → List Char → List (List Char)
  | [], acc => [acc.reverse]
  | c :: r, acc =>
    if c = '\n' then
      match r with
      | [] => [acc.reverse]
      | _ :: _ => acc.reverse :: splitNl r []
    else splitNl r (c :: acc)

/-- Python `str.splitlines()` over `\n`-separated text; the empty string
has no lines. -/
def splitlines (l : List Char) : List (List Char) :=
  if l.isEmpty then [] else splitNl l []

/-- The comparison loop of `XmlString.__eq__` (src lines 73-75): walk the
zipped line pairs, short-circuit to `False` at the first mismatch,
propagate the first parse failure reached. -/
def eqLoop : List (List Char) → List (List Char) → Except Unit Bool
  | l :: ls, l2 :: ls2 =>
    match eq_elm_strs l l2 with
    | .error u => .error u
    | .ok false => .ok false
    | .ok true => eqLoop ls ls2
  | _, _ => .ok true

/-- `XmlString.__eq__` (src lines 66-76): differing line counts compare
unequal without parsing; otherwise the zipped lines are compared pairwise. -/
def xmlStringEq (s other : String) : Except Unit Bool :=
  if (splitlines s.data).length = (splitlines other.data).length then
    eqLoop (splitlines s.data) (splitlines other.data)
  else .ok false

/-- `XmlString.__ne__` (src lines 78-79): `not self.__eq__(other)`. -/
def xmlStringNe (s other : String) : Except Unit Bool :=
  match xmlStringEq s other with
  | .ok b => .ok (!b)
  | .error u => .error u

theorem strLeB_total : ∀ a b, strLeB a b = true ∨ strLeB b a = true := by
  intro a
  induction a with
  | nil => intro b; left; rfl
  | cons x xs ih =>
    intro b
    match b with
    | [] => right; rfl
    | y :: ys =>
      simp only [strLeB]
      rcases Nat.lt_trichotomy x.toNat y.toNat with h | h | h
      · left; rw [if_pos h]
      · rw [if_neg (by omega), if_neg (by omega), if_neg (by omega), if_neg (by omega)]
        exact ih ys
      · right; rw [if_pos h]

theorem strLeB_trans : ∀ a b c,
    strLeB a b = true → strLeB b c = true → strLeB a c = true := by
  intro a
  induction a with
  | nil => intro b c _ _; rfl
  | cons x xs ih =>
    intro b c hab hbc
    match b, c with
    | [], _ => simp [strLeB] at hab
    | y :: ys, [] => simp [strLeB] at hbc
    | y :: ys, z :: zs =>
      simp only [strLeB] at hab hbc ⊢
      split_ifs at hab hbc ⊢ <;>
        first
          | rfl
          | omega
          | exact ih ys zs hab hbc

theorem char_eq_of_toNat (x y : Char) (h : x.toNat = y.toNat) : x = y :=
  Char.ext (UInt32.ext h)

theorem strLeB_antisymm : ∀ a b, strLeB a b = true → strLeB b a = true → a = b := by
  intro a
  induction a with
  | nil =>
    intro b _ hba
    match b with
    | [] => rfl
    | y :: ys => simp [strLeB] at hba
  | cons x xs ih =>
    intro b hab hba
    match b with
    | [] => simp [strLeB] at hab
    | y :: ys =>
      simp only [strLeB] at hab hba
      split_ifs at hab hba <;>
        first
          | omega
          | exact absurd hab (by decide)
          | exact absurd hba (by decide)
          | rw [char_eq_of_toNat x y (by omega), ih ys hab hba]

instance : IsTrans (List Char) (fun a b => strLeB a b = true) := ⟨strLeB_trans⟩

instance : IsTotal (List Char) (fun a b => strLeB a b = true) := ⟨strLeB_total⟩

instance : IsAntisymm (List Char) (fun a b => strLeB a b = true) := ⟨strLeB_antisymm⟩

theorem attr_seq_eq_iff_perm (a b : List Char) :
    attr_seq a = attr_seq b ↔ (splitWs a).Perm (splitWs b) := by
  have p1 := List.perm_insertionSort (fun x y => strLeB x y = true) (splitWs a)
  have p2 := List.perm_insertionSort (fun x y => strLeB x y = true) (splitWs b)
  constructor
  · intro h
    unfold attr_seq at h
    rw [← h] at p2
    exact p1.symm.trans p2
  · intro h
    unfold attr_seq
    exact List.eq_of_perm_of_sorted (p1.trans (h.trans p2.symm))
      (List.sorted_insertionSort _ _) (List.sorted_insertionSort _ _)

theorem eqLoop_iff : ∀ ls ms : List (List Char),
    (∀ l ∈ ls, (parse_line l).isSome = true) →
    (∀ m ∈ ms, (parse_line m).isSome = true) →
    (eqLoop ls ms = .ok true ↔
      ∀ p ∈ ls.zip ms, ∀ g g2, parse_line p.1 = some g → parse_line p.2 = some g2 →
        g.front = g2.front ∧ g.close = g2.close ∧ g.text = g2.text ∧
          (splitWs g.attrs).Perm (splitWs g2.attrs)) := by
  intro ls
  induction ls with
  | nil =>
    intro ms _ _
    constructor
    · intro _ p hp
      exact absurd hp (List.not_mem_nil p)
    · intro _
      rfl
  | cons l ls ih =>
    intro ms hl hm
    match ms with
    | [] =>
      constructor
      · intro _ p hp
        exact absurd hp (List.not_mem_nil p)
      · intro _
        rfl
    | m :: ms =>
      obtain ⟨g, hg⟩ := Option.isSome_iff_exists.mp (hl l (List.mem_cons_self l ls))
      obtain ⟨g2, hg2⟩ := Option.isSome_iff_exists.mp (hm m (List.mem_cons_self m ms))
      have hElm : eq_elm_strs l m = .ok
          (decide (g.front = g2.front) && decide (attr_seq g.attrs = attr_seq g2.attrs)
            && decide (g.close = g2.close) && decide (g.text = g2.text)) := by
        unfold eq_elm_strs
        rw [hg, hg2]
      have hloop : eqLoop (l :: ls) (m :: ms)
          = match eq_elm_strs l m with
            | .error u => .error u
            | .ok false => .ok false
            | .ok true => eqLoop ls ms := rfl
      have hzip : (l :: ls).zip (m :: ms) = (l, m) :: ls.zip ms := rfl
      rw [hloop, hElm]
      by_cases hB : (decide (g.front = g2.front)
          && decide (attr_seq g.attrs = attr_seq g2.attrs)
          && decide (g.close = g2.close) && decide (g.text = g2.text)) = true
      · rw [hB]
        have hHead : g.front = g2.front ∧ g.close = g2.close ∧ g.text = g2.text ∧
            (splitWs g.attrs).Perm (splitWs g2.attrs) := by
          simp only [Bool.and_eq_true, decide_eq_true_eq] at hB
          exact ⟨hB.1.1.1, hB.1.2, hB.2, (attr_seq_eq_iff_perm _ _).mp hB.1.1.2⟩
        rw [ih ms (fun x hx => hl x (List.mem_cons_of_mem l hx))
          (fun x hx => hm x (List.mem_cons_of_mem m hx))]
        constructor
        · intro htail p hp
          rw [hzip] at hp
          rcases List.mem_cons.mp hp with rfl | hp2
          · intro gA gB h1 h2
            obtain rfl : g = gA := Option.some.inj (hg.symm.trans h1)
            obtain rfl : g2 = gB := Option.some.inj (hg2.symm.trans h2)
            exact hHead
          · exact htail p hp2
        · intro hAll p hp
          exact hAll p (by rw [hzip]; exact List.mem_cons_of_mem _ hp)
      · have hBf : (decide (g.front = g2.front)
            && decide (attr_seq g.attrs = attr_seq g2.attrs)
            && decide (g.close = g2.close) && decide (g.text = g2.text)) = false := by
          simpa using hB
        rw [hBf]
        constructor
        · intro h
          exact Bool.noConfusion (Except.ok.inj h)
        · intro hAll
          exfalso
          apply hB
          have hHead := hAll (l, m) (by rw [hzip]; exact List.mem_cons_self _ _) g g2 hg hg2
          simp only [Bool.and_eq_true, decide_eq_true_eq]
          exact ⟨⟨⟨hHead.1, (attr_seq_eq_iff_perm _ _).mpr hHead.2.2.2⟩, hHead.2.1⟩,
            hHead.2.2.1⟩

/-- Claim C10: for two strings with the same number of lines, each line
parsing as a serialized XML element line, `XmlString.__eq__` holds exactly
when every corresponding line pair has identical front, identical close
delimiter, identical trailing text, and the same multiset of attribute
strings (so reordering attributes within a line never changes the
result), and `__ne__` is the exact negation of `__eq__`. -/
theorem c10_xmlstring_attr_order_insensitive (s other : String)
    (hlen : (splitlines s.data).length = (splitlines other.data).length)
    (hs : ∀ l ∈ splitlines s.data, (parse_line l).isSome = true)
    (ho : ∀ l ∈ splitlines other.data, (parse_line l).isSome = true) :
    (xmlStringEq s other = .ok true ↔
      ∀ p ∈ (splitlines s.data).zip (splitlines other.data),
        ∀ g g2, parse_line p.1 = some g → parse_line p.2 = some g2 →
          g.front = g2.front ∧ g.close = g2.close ∧ g.text = g2.text ∧
            (splitWs g.attrs).Perm (splitWs g2.attrs)) ∧
    (∀ b, xmlStringEq s other = .ok b → xmlStringNe s other = .ok (!b)) := by
  constructor
  · unfold xmlStringEq
    rw [if_pos hlen]
    exact eqLoop_iff _ _ hs ho
  · intro b hb
    unfold xmlStringNe
    rw [hb]

theorem c10_xmlstring_attr_order_insensitive_witness :
    (xmlStringEq "<a:p b=\"1\" c=\"2\">t</a:p>\n  <a:q/>"
        "<a:p c=\"2\" b=\"1\">t</a:p>\n  <a:q/>" = .ok true ↔
      ∀ p ∈ (splitlines ("<a:p b=\"1\" c=\"2\">t</a:p>\n  <a:q/>").data).zip
          (splitlines ("<a:p c=\"2\" b=\"1\">t</a:p>\n  <a:q/>").data),
        ∀ g g2, parse_line p.1 = some g → parse_line p.2 = some g2 →
          g.front = g2.front ∧ g.close = g2.close ∧ g.text = g2.text ∧
            (splitWs g.attrs).Perm (splitWs g2.attrs)) ∧
    (∀ b, xmlStringEq "<a:p b=\"1\" c=\"2\">t</a:p>\n  <a:q/>"
          "<a:p c=\"2\" b=\"1\">t</a:p>\n  <a:q/>" = .ok b →
      xmlStringNe "<a:p b=\"1\" c=\"2\">t</a:p>\n  <a:q/>"
          "<a:p c=\"2\" b=\"1\">t</a:p>\n  <a:q/>" = .ok (!b)) :=
  c10_xmlstring_attr_order_insensitive
    "<a:p b=\"1\" c=\"2\">t</a:p>\n  <a:q/>"
    "<a:p c=\"2\" b=\"1\">t</a:p>\n  <a:q/>"
    (by decide) (by decide) (by decide)
